import Mathlib

/-!
Shallow embedding of the monzo-techtest crawler core
(crawler/crawler.go, crawler/hash_set.go, scheduler/scheduler.go,
scheduler/worker.go) and proofs about the behaviour its specification
describes.

Go maps are modelled as an optional list of keys: `none` is the nil map of
the zero value (reads are total on it, a write to it panics), `some l`
is an initialised map whose key list is `l` (the code only writes a key
when it is absent, so `l` stays duplicate-free).  Fallible Go operations
(nil-map writes, `make(chan T, n)` with negative `n`, `panic`) are
modelled with `Except`.
-/

set_option autoImplicit false

/-- Membership lookup in a Go map modelled by its optional key list.
Reading from a nil map is legal in Go and finds nothing. -/
def mapHas : Option (List String) → String → Bool
  | none, _ => false
  | some l, t => l.contains t

/-- The number of keys of a Go map; `len` of a nil map is 0. -/
def mapLen : Option (List String) → Nat
  | none => 0
  | some l => l.length

/-- The keys of a Go map as a list; ranging over a nil map yields nothing. -/
def mapKeys : Option (List String) → List String
  | none => []
  | some l => l

/-- Writing a fresh key into a Go map.  An assignment to an entry of a nil
map panics at run time, modelled as an error. -/
def mapWrite : Option (List String) → String → Except String (Option (List String))
  | none, _ => Except.error "assignment to entry in nil map"
  | some l, t => Except.ok (some (l ++ [t]))

/-- `crawler/hash_set.go`: `type hashSet struct { data map[string]bool ... }`.
The zero value has `data = nil`. -/
structure hashSet where
  data : Option (List String)
deriving DecidableEq

/-- The zero value of `hashSet` (as produced by `var s hashSet` or the
`cache`/`visited` fields of a freshly allocated `Crawler`). -/
def hashSet.zero : hashSet := { data := none }

/-- `hashSet.add`: lock, lazily initialise the map when it is nil, insert
the item only when absent, return the (updated) set. -/
def hashSet.add (s : hashSet) (t : String) : Except String hashSet :=
  let d := some (s.data.getD [])
  if mapHas d t then Except.ok { data := d }
  else (mapWrite d t).map (fun d2 => { data := d2 })

/-- One iteration of the loop body of `hashSet.addSlice`: look the item up
and write it only when absent. -/
def addSliceStep (m : Option (List String)) (t : String) :
    Except String (Option (List String)) :=
  if mapHas m t then Except.ok m else mapWrite m t

/-- `hashSet.addSlice`: lock, lazily initialise the map when it is nil,
then insert each item of the slice that is absent. -/
def hashSet.addSlice (s : hashSet) (a : List String) : Except String hashSet :=
  let d := some (s.data.getD [])
  (a.foldlM addSliceStep d).map (fun d2 => { data := d2 })

/-- `hashSet.has`: membership test under the read lock. -/
def hashSet.has (s : hashSet) (element : String) : Bool :=
  mapHas s.data element

/-- `hashSet.slice`: all keys materialised as a list under the read lock. -/
def hashSet.slice (s : hashSet) : List String :=
  mapKeys s.data

/-- `hashSet.size`: `len(s.data)` under the read lock. -/
def hashSet.size (s : hashSet) : Nat :=
  mapLen s.data

/-- Pure insertion of one key: the successful result of the lookup/write
pair performed by `add` on an initialised map. -/
def insertKey (l : List String) (t : String) : List String :=
  if l.contains t then l else l ++ [t]

/-- Pure insertion of a slice of keys, left to right. -/
def insertAll (l : List String) (a : List String) : List String :=
  a.foldl insertKey l

/-- The pure value `hashSet.add` always succeeds with. -/
def hashSet.addFn (s : hashSet) (t : String) : hashSet :=
  { data := some (insertKey (s.data.getD []) t) }

/-- The pure value `hashSet.addSlice` always succeeds with. -/
def hashSet.addSliceFn (s : hashSet) (a : List String) : hashSet :=
  { data := some (insertAll (s.data.getD []) a) }

/-!  Scheduler (scheduler/scheduler.go) -/

/-- Go `make(chan T, n)`: a negative capacity panics at run time
(`makechan: size out of range`); zero or positive capacities succeed. -/
def goMakeChanCap (n : Int) : Except String Unit :=
  if n < 0 then Except.error "makechan: size out of range" else Except.ok ()

/-- The scheduler state visible to the claims: the configured
`MaxWorkers`, whether `WithHandler` bound a handler, how many workers
were built, and the input queue of pending tasks. -/
structure Scheduler (T : Type) where
  maxWorkers : Int
  hasHandler : Bool
  numWorkers : Nat
  inputQueue : List T
deriving DecidableEq

/-- `NewScheduler`: builds the `WorkerState` and `workerPool` channels with
capacity `opts.MaxWorkers` (each of which panics when the capacity is
negative) and returns a scheduler with no handler and an empty queue. -/
def NewScheduler (T : Type) (maxWorkers : Int) : Except String (Scheduler T) :=
  (goMakeChanCap maxWorkers).bind (fun _ =>
    (goMakeChanCap maxWorkers).map (fun _ =>
      { maxWorkers := maxWorkers, hasHandler := false,
        numWorkers := 0, inputQueue := [] }))

/-- `Scheduler.WithHandler`: records the handler and builds one worker per
iteration of `for i := 0; i < s.opts.MaxWorkers; i++`. -/
def Scheduler.WithHandler {T : Type} (s : Scheduler T) : Scheduler T :=
  { s with hasHandler := true, numWorkers := s.maxWorkers.toNat }

/-- `Scheduler.Start`: panics with `scheduler missing handler` when no
handler was bound, otherwise starts the workers and the dispatch loop. -/
def Scheduler.Start {T : Type} (s : Scheduler T) : Except String (Scheduler T) :=
  if s.hasHandler then Except.ok s else Except.error "scheduler missing handler"

/-- `Scheduler.enqueue`: `s.inputQueue = append(s.inputQueue, t)`. -/
def Scheduler.enqueue {T : Type} (s : Scheduler T) (t : T) : Scheduler T :=
  { s with inputQueue := s.inputQueue ++ [t] }

/-- `Scheduler.Dispatch`: `for _, t := range tasks { s.enqueue(t) }`. -/
def Scheduler.Dispatch {T : Type} (s : Scheduler T) (tasks : List T) : Scheduler T :=
  tasks.foldl Scheduler.enqueue s

/-- The primitive shared-state actions an input-queue operation performs,
in program order: mutex operations and accesses to the shared
`inputQueue` slice. -/
inductive QueueAction
  | lockAcquire
  | lockRelease
  | queueRead
  | queueWrite
deriving DecidableEq

/-- Action trace of `Scheduler.enqueue` (scheduler.go lines 103-105):
`append(s.inputQueue, t)` reads and then writes the shared slice; no
`inputQueueLock` operation appears in its body. -/
def enqueueActions : List QueueAction :=
  [QueueAction.queueRead, QueueAction.queueWrite]

/-- Action trace of `Scheduler.dequeue` (scheduler.go lines 107-113):
`Lock`, read `inputQueue[0]` and the slice header, write the new slice
header, deferred `Unlock`. -/
def dequeueActions : List QueueAction :=
  [QueueAction.lockAcquire, QueueAction.queueRead,
   QueueAction.queueWrite, QueueAction.lockRelease]

/-- An action list accesses the queue in a synchronized way when every
read or write of the shared slice happens while the mutex is held
(`d` counts currently held acquisitions). -/
def accessesGuarded : List QueueAction → Nat → Bool
  | [], _ => true
  | QueueAction.lockAcquire :: rest, d => accessesGuarded rest (d + 1)
  | QueueAction.lockRelease :: rest, d => accessesGuarded rest (d - 1)
  | QueueAction.queueRead :: rest, d => decide (0 < d) && accessesGuarded rest d
  | QueueAction.queueWrite :: rest, d => decide (0 < d) && accessesGuarded rest d

/-- The only primitive that can block a caller in this model is taking the
mutex (channel operations do not occur in `enqueue`/`dequeue`). -/
def QueueAction.isBlocking : QueueAction → Bool
  | QueueAction.lockAcquire => true
  | _ => false

/-!  Crawl orchestrator (crawler/crawler.go) -/

/-- One Result Record (`crawlerResult` in crawler.go). -/
structure crawlerResult where
  url : String
  status : Nat
  count : Nat
  links : List String
deriving DecidableEq

/-- The orchestrator-owned state plus the scheduler's input queue, the
state a sequential execution of the crawl threads over. -/
structure CrawlState where
  cache : hashSet
  visited : hashSet
  result : List crawlerResult
  queue : List String
deriving DecidableEq

/-- The fetcher collaborator: `parser.ParseLinks` returns either the
extracted links and status code, or a failure (`none`). -/
def Fetch : Type := String → Option (List String × Nat)

/-- `Crawler.handler` (crawler.go lines 238-288) as one atomic step of the
state: return early when the task is already visited; fetch; mark
visited regardless of the outcome; on failure return; on success append a
Result Record, filter the returned links against a `visited.slice()`
snapshot (taken after the task itself was marked visited), add exactly
that subset to the cache, and `Dispatch(output.Links)` — all returned
links — to the scheduler queue. -/
def handlerStep (f : Fetch) (s : CrawlState) (input : String) : CrawlState :=
  if s.visited.has input then s
  else
    match f input with
    | none => { s with visited := s.visited.addFn input }
    | some (links, status) =>
      let visited1 := s.visited.addFn input
      let result1 := s.result ++
        [{ url := input, status := status, count := links.length, links := links }]
      let snapshot := visited1.slice
      let nonVisitedLinks := links.filter (fun l => ! snapshot.contains l)
      { cache := s.cache.addSliceFn nonVisitedLinks,
        visited := visited1,
        result := result1,
        queue := s.queue ++ links }

/-- `Crawler.Crawl` before entering `run`: `c.cache.add(input)` then
`c.scheduler.Dispatch([]string{input})` on fresh zero-value sets. -/
def initState (seed : String) : CrawlState :=
  { cache := hashSet.zero.addFn seed,
    visited := hashSet.zero,
    result := [],
    queue := [seed] }

/-- Sequential execution of the crawl: repeatedly pop the head of the
input queue and run the handler on it, for at most `fuel` steps. -/
def crawlExec (f : Fetch) : Nat → CrawlState → CrawlState
  | 0, s => s
  | fuel + 1, s =>
    match s.queue with
    | [] => s
    | t :: rest => crawlExec f fuel (handlerStep f { s with queue := rest } t)

/-- The crawl states reachable from some seed by popping queued tasks and
running the handler on them. -/
inductive Reach (f : Fetch) : CrawlState → Prop
  | init (seed : String) : Reach f (initState seed)
  | step {s : CrawlState} {t : String} {rest : List String} :
      Reach f s → s.queue = t :: rest →
      Reach f (handlerStep f { s with queue := rest } t)

/-!  The orchestrator polling loop (Crawler.run, crawler.go 146-179) -/

/-- `syscall.SIGINT`, `syscall.SIGQUIT`, `syscall.SIGTERM`. -/
def sigINT : Int := 2

def sigQUIT : Int := 3

def sigTERM : Int := 15

/-- One select-case of the `run` loop: a ticker tick (with the sizes the
poll reads at that instant), a worker-state message, or an external
signal delivered on the `quit` channel. -/
inductive RunEvent
  | tick (visitedSize cacheSize : Nat)
  | workerState (id : Nat) (task : String)
  | signal (sig : Int)

/-- What `run` has done when it finishes (or has not, while looping):
whether it returned through the graceful deferred path (which calls
`scheduler.Stop()`, `ticker.Stop()` and `done()`), or exited abruptly
via `os.Exit` (which skips the deferred calls). -/
structure RunResult where
  finished : Bool
  graceful : Bool
  exitCode : Option Int
  schedulerStopped : Bool
  tickerStopped : Bool
  outputProduced : Bool
deriving DecidableEq

/-- The loop is still selecting. -/
def stillRunning : RunResult :=
  { finished := false, graceful := false, exitCode := none,
    schedulerStopped := false, tickerStopped := false, outputProduced := false }

/-- The `return` path: the deferred function stops the scheduler, stops
the ticker and produces final output via `done()`. -/
def gracefulResult : RunResult :=
  { finished := true, graceful := true, exitCode := none,
    schedulerStopped := true, tickerStopped := true, outputProduced := true }

/-- The `os.Exit(int(sig))` path: deferred calls do not run. -/
def exitResult (code : Int) : RunResult :=
  { finished := true, graceful := false, exitCode := some code,
    schedulerStopped := false, tickerStopped := false, outputProduced := false }

/-- The `run` select loop under the schedule in which a pending message on
the buffered `quit` channel is always the next case selected.  A tick
whose observed `visitedSize >= cacheSize` sends `SIGQUIT` to `quit`; a
received signal other than `SIGQUIT` calls `os.Exit`; a received
`SIGQUIT` returns, running the deferred shutdown. -/
def runLoop : List RunEvent → List Int → RunResult
  | _, sig :: _ =>
    if sig = sigQUIT then gracefulResult else exitResult sig
  | [], [] => stillRunning
  | RunEvent.tick v c :: rest, [] =>
    runLoop rest (if c ≤ v then [sigQUIT] else [])
  | RunEvent.workerState _ _ :: rest, [] => runLoop rest []
  | RunEvent.signal s :: rest, [] => runLoop rest [s]

/-- An event makes the loop leave (possibly after one more iteration):
a quiescent poll observation or any external signal. -/
def RunEvent.triggersStop : RunEvent → Bool
  | RunEvent.tick v c => decide (c ≤ v)
  | RunEvent.workerState _ _ => false
  | RunEvent.signal _ => true

/-!  Sequences of set API calls, for the membership claim -/

/-- One call of the concurrent set API: `Add(t)` or `AddAll(ts)`. -/
inductive SetOp
  | add (t : String)
  | addAll (ts : List String)

/-- Whether the call passes the item `x` to the set. -/
def SetOp.mentions (x : String) : SetOp → Bool
  | SetOp.add t => t == x
  | SetOp.addAll ts => ts.contains x

/-- Apply one API call to the set. -/
def applyOp (u : hashSet) (op : SetOp) : Except String hashSet :=
  match op with
  | SetOp.add t => u.add t
  | SetOp.addAll ts => u.addSlice ts

/-- Run a sequence of `Add`/`AddAll` calls left to right. -/
def runOps (s : hashSet) (ops : List SetOp) : Except String hashSet :=
  ops.foldlM applyOp s

/-- The pure effect of one API call. -/
def applyOpFn (u : hashSet) (op : SetOp) : hashSet :=
  match op with
  | SetOp.add t => u.addFn t
  | SetOp.addAll ts => u.addSliceFn ts

/-- The pure value `runOps` always succeeds with. -/
def runOpsFn (s : hashSet) (ops : List SetOp) : hashSet :=
  ops.foldl applyOpFn s

/-!  Concrete crawl scenarios -/

def urlA : String := "https://a.test"

def urlX : String := "https://a.test/x"

def urlY : String := "https://a.test/y"

/-- The fetch oracle of the three-page scenario: the seed links to /x and
/y, /x has no links, /y links back to /x. -/
def fetchC5 : Fetch := fun u =>
  if u = urlA then some ([urlX, urlY], 200)
  else if u = urlX then some ([], 200)
  else if u = urlY then some ([urlX], 200)
  else none

/-- The failing-fetch scenario: the fetch of /x fails (times out), the
other pages succeed. -/
def fetchTimeoutX : Fetch := fun u =>
  if u = urlA then some ([urlX, urlY], 200)
  else if u = urlY then some ([], 200)
  else none

/-- A fetch whose returned links include an already-completed page b. -/
def fetchC1 : Fetch := fun u =>
  if u = "https://a.test" then some (["https://a.test/b", "https://a.test/c"], 200)
  else none

/-- A crawl state in which page b is already completed (a racing worker
finished it) while the seed a is being handled. -/
def stateC1 : CrawlState :=
  { cache := (hashSet.zero.addFn "https://a.test").addFn "https://a.test/b",
    visited := hashSet.zero.addFn "https://a.test/b",
    result := [],
    queue := [] }

/-- A scheduler configured with 2 workers on which `WithHandler` was never
called. -/
def schedulerNoHandler : Scheduler String :=
  { maxWorkers := 2, hasHandler := false, numWorkers := 0, inputQueue := [] }

/-!  Proofs -/

theorem contains_decide (l : List String) (x : String) :
    l.contains x = decide (x ∈ l) := by simp

theorem beq_decide (x t : String) : (x == t) = decide (x = t) := by
  by_cases h : x = t <;> simp [h]

theorem insertKey_contains (l : List String) (t x : String) :
    (insertKey l t).contains x = (l.contains x || x == t) := by
  by_cases h : t ∈ l
  · by_cases hxt : x = t
    · subst hxt
      simp [insertKey, contains_decide, beq_decide, h]
    · simp [insertKey, contains_decide, beq_decide, h, hxt]
  · simp [insertKey, contains_decide, beq_decide, h, List.mem_append]

theorem insertAll_contains (a : List String) (l : List String) (x : String) :
    (insertAll l a).contains x = (l.contains x || a.contains x) := by
  induction a generalizing l with
  | nil => simp [insertAll]
  | cons t rest ih =>
    show (insertAll (insertKey l t) rest).contains x = _
    rw [ih, insertKey_contains]
    simp only [contains_decide, beq_decide, List.mem_cons]
    by_cases hxt : x = t <;> by_cases hxl : x ∈ l <;> simp [hxt, hxl]

theorem add_eq_ok (s : hashSet) (t : String) :
    s.add t = Except.ok (s.addFn t) := by
  by_cases h : t ∈ s.data.getD []
  · simp [hashSet.add, hashSet.addFn, insertKey, mapHas, contains_decide, h]
  · simp [hashSet.add, hashSet.addFn, insertKey, mapHas, mapWrite,
      contains_decide, h, Except.map]

theorem foldlM_addSliceStep (a : List String) (l : List String) :
    a.foldlM addSliceStep (some l) = Except.ok (some (insertAll l a)) := by
  induction a generalizing l with
  | nil => rfl
  | cons t rest ih =>
    show addSliceStep (some l) t >>= (fun m => rest.foldlM addSliceStep m) = _
    by_cases h : t ∈ l
    · have hc : mapHas (some l) t = true := by
        simp [mapHas, contains_decide, h]
      rw [show addSliceStep (some l) t = Except.ok (some l) by
        simp [addSliceStep, hc]]
      show rest.foldlM addSliceStep (some l) = _
      rw [ih]
      have : insertKey l t = l := by simp [insertKey, contains_decide, h]
      show _ = Except.ok (some (insertAll (insertKey l t) rest))
      rw [this]
    · have hc : mapHas (some l) t = false := by
        simp [mapHas, contains_decide, h]
      rw [show addSliceStep (some l) t = Except.ok (some (l ++ [t])) by
        simp [addSliceStep, hc, mapWrite]]
      show rest.foldlM addSliceStep (some (l ++ [t])) = _
      rw [ih]
      have : insertKey l t = l ++ [t] := by simp [insertKey, contains_decide, h]
      show _ = Except.ok (some (insertAll (insertKey l t) rest))
      rw [this]

theorem addSlice_eq_ok (s : hashSet) (a : List String) :
    s.addSlice a = Except.ok (s.addSliceFn a) := by
  show Except.map (fun d2 => ({ data := d2 } : hashSet))
      (a.foldlM addSliceStep (some (s.data.getD []))) = _
  rw [foldlM_addSliceStep]
  rfl

theorem has_eq_getD (s : hashSet) (x : String) :
    s.has x = (s.data.getD []).contains x := by
  cases h : s.data <;> simp [hashSet.has, mapHas, h]

theorem addFn_has (s : hashSet) (t x : String) :
    (s.addFn t).has x = (s.has x || x == t) := by
  rw [has_eq_getD, has_eq_getD]
  simp only [hashSet.addFn, Option.getD_some]
  exact insertKey_contains _ t x

theorem addSliceFn_has (s : hashSet) (a : List String) (x : String) :
    (s.addSliceFn a).has x = (s.has x || a.contains x) := by
  rw [has_eq_getD, has_eq_getD]
  simp only [hashSet.addSliceFn, Option.getD_some]
  exact insertAll_contains a _ x

theorem slice_contains (s : hashSet) (x : String) :
    s.slice.contains x = s.has x := by
  cases h : s.data <;> simp [hashSet.slice, hashSet.has, mapKeys, mapHas, h]


theorem insertKey_contains_self (l : List String) (t : String) :
    (insertKey l t).contains t = true := by
  rw [insertKey_contains]
  simp [beq_decide]

theorem insertKey_of_contains (l : List String) (t : String)
    (h : l.contains t = true) : insertKey l t = l := by
  rw [contains_decide] at h
  simp [insertKey, contains_decide, of_decide_eq_true h]

theorem addFn_idem (s : hashSet) (t : String) :
    (s.addFn t).addFn t = s.addFn t := by
  show ({ data := some (insertKey ((some (insertKey (s.data.getD []) t)).getD []) t) }
      : hashSet) = _
  rw [Option.getD_some, insertKey_of_contains _ t (insertKey_contains_self _ t)]
  rfl

theorem insertAll_of_contains (a : List String) (l : List String)
    (h : ∀ x ∈ a, l.contains x = true) : insertAll l a = l := by
  induction a with
  | nil => rfl
  | cons t rest ih =>
    show insertAll (insertKey l t) rest = l
    rw [insertKey_of_contains l t (h t (List.mem_cons_self t rest))]
    exact ih (fun x hx => h x (List.mem_cons_of_mem t hx))

theorem addSliceFn_idem (s : hashSet) (a : List String) :
    (s.addSliceFn a).addSliceFn a = s.addSliceFn a := by
  show ({ data := some (insertAll ((some (insertAll (s.data.getD []) a)).getD []) a) }
      : hashSet) = _
  rw [Option.getD_some, insertAll_of_contains a _ (fun x hx => by
    rw [insertAll_contains, contains_decide a x]
    simp [hx])]
  rfl

/-- C8: Add and AddAll insert an item only if absent and are idempotent:
adding `t` (or the slice `a`) twice yields the same set as adding it once,
and when `t` is already present `add` leaves the set unchanged. -/
theorem add_idempotent (s : hashSet) (t : String) (a : List String) :
    ((s.add t).bind (fun u => u.add t) = s.add t) ∧
    ((s.addSlice a).bind (fun u => u.addSlice a) = s.addSlice a) ∧
    (s.has t = true → s.add t = Except.ok s) := by
  refine ⟨?_, ?_, ?_⟩
  · rw [add_eq_ok s t]
    show (s.addFn t).add t = _
    rw [add_eq_ok, addFn_idem]
  · rw [addSlice_eq_ok s a]
    show (s.addSliceFn a).addSlice a = _
    rw [addSlice_eq_ok, addSliceFn_idem]
  · intro h
    cases hd : s.data with
    | none => simp [hashSet.has, mapHas, hd] at h
    | some l =>
      have hl : l.contains t = true := by
        simpa [hashSet.has, mapHas, hd] using h
      show (if mapHas (some (s.data.getD [])) t then _ else _) = _
      rw [hd]
      simp only [Option.getD_some, mapHas, hl, if_true]
      cases s
      simp at hd
      rw [hd]

/-- A closed instance of the C8 theorem: the singleton set already holding
the item is left unchanged by a repeated Add. -/
theorem add_idempotent_witness :
    (({ data := some ["p"] } : hashSet).has "p" = true) ∧
    ({ data := some ["p"] } : hashSet).add "p"
      = Except.ok ({ data := some ["p"] } : hashSet) :=
  ⟨by decide, (add_idempotent { data := some ["p"] } "p" []).2.2 (by decide)⟩

theorem applyOp_eq_ok (u : hashSet) (op : SetOp) :
    applyOp u op = Except.ok (applyOpFn u op) := by
  cases op with
  | add t => exact add_eq_ok u t
  | addAll ts => exact addSlice_eq_ok u ts

theorem runOps_eq_ok (ops : List SetOp) (s : hashSet) :
    runOps s ops = Except.ok (runOpsFn s ops) := by
  induction ops generalizing s with
  | nil => rfl
  | cons op rest ih =>
    show applyOp s op >>= (fun u => rest.foldlM applyOp u) = _
    rw [applyOp_eq_ok]
    show runOps (applyOpFn s op) rest = _
    rw [ih]
    rfl

theorem applyOpFn_mono (u : hashSet) (op : SetOp) (x : String)
    (h : u.has x = true) : (applyOpFn u op).has x = true := by
  cases op with
  | add t => rw [applyOpFn, addFn_has, h]; rfl
  | addAll ts => rw [applyOpFn, addSliceFn_has, h]; rfl

theorem runOpsFn_mono (ops : List SetOp) (s : hashSet) (x : String)
    (h : s.has x = true) : (runOpsFn s ops).has x = true := by
  induction ops generalizing s with
  | nil => exact h
  | cons op rest ih => exact ih (applyOpFn s op) (applyOpFn_mono s op x h)

theorem applyOpFn_mentions (u : hashSet) (op : SetOp) (x : String)
    (h : op.mentions x = true) : (applyOpFn u op).has x = true := by
  cases op with
  | add t =>
    have : t = x := by simpa [SetOp.mentions, beq_decide] using h
    subst this
    rw [applyOpFn, addFn_has]
    simp [beq_decide]
  | addAll ts =>
    rw [applyOpFn, addSliceFn_has]
    have : ts.contains x = true := h
    rw [this]
    simp

theorem runOpsFn_mentions (ops : List SetOp) (x : String) :
    ∀ (s : hashSet), ops.any (fun op => op.mentions x) = true →
    (runOpsFn s ops).has x = true := by
  induction ops with
  | nil => intro s hx; simp at hx
  | cons op rest ih =>
    intro s hx
    by_cases hm : op.mentions x = true
    · exact runOpsFn_mono rest (applyOpFn s op) x (applyOpFn_mentions s op x hm)
    · refine ih (applyOpFn s op) ?_
      simp only [List.any_cons, Bool.or_eq_true] at hx
      rcases hx with h | h
      · exact absurd h hm
      · exact h

/-- C9: after any sequence of Add/AddAll calls that passes `x` to the set,
Has(x) returns true: membership reflects every prior insert. -/
theorem membership_after_ops (s : hashSet) (ops : List SetOp) (x : String)
    (u : hashSet) (hrun : runOps s ops = Except.ok u)
    (hx : ops.any (fun op => op.mentions x) = true) :
    u.has x = true := by
  rw [runOps_eq_ok] at hrun
  injection hrun with hu
  subst hu
  exact runOpsFn_mentions ops x s hx

/-- A closed instance of the C9 theorem: after Add("p") on the zero-value
set, Has("p") is true. -/
theorem membership_after_ops_witness :
    (runOpsFn hashSet.zero [SetOp.add "p"]).has "p" = true :=
  membership_after_ops hashSet.zero [SetOp.add "p"] "p"
    (runOpsFn hashSet.zero [SetOp.add "p"]) (runOps_eq_ok _ _) (by decide)

/-- C10: every hashSet operation is total on the zero value: has finds
nothing, size is 0, slice is empty, and add/addSlice lazily initialise
the nil map so the first insert succeeds instead of panicking. -/
theorem zero_value_total (x t : String) (a : List String) :
    hashSet.zero.has x = false ∧
    hashSet.zero.size = 0 ∧
    hashSet.zero.slice = [] ∧
    hashSet.zero.add t = Except.ok { data := some [t] } ∧
    (hashSet.zero.addSlice a).isOk = true := by
  refine ⟨rfl, rfl, rfl, ?_, ?_⟩
  · rw [add_eq_ok]
    simp [hashSet.addFn, hashSet.zero, insertKey]
  · rw [addSlice_eq_ok]
    rfl

theorem dispatch_inputQueue {T : Type} (ts : List T) (s : Scheduler T) :
    (Scheduler.Dispatch s ts).inputQueue = s.inputQueue ++ ts := by
  induction ts generalizing s with
  | nil => simp [Scheduler.Dispatch]
  | cons t rest ih =>
    show (Scheduler.Dispatch (Scheduler.enqueue s t) rest).inputQueue = _
    rw [ih]
    simp [Scheduler.enqueue]

/-- C2 is false as stated: the producers (`enqueue`, called from
`Dispatch`) access the shared input queue without holding the queue
mutex, so producers and the consumer do not synchronize their accesses;
only the consumer's pop (`dequeue`) is mutex-protected. -/
theorem queue_sync_counterexample :
    ¬ (accessesGuarded enqueueActions 0 = true ∧
       accessesGuarded dequeueActions 0 = true) := by
  decide

/-- C2 amended: Dispatch appends each given task to the Input Queue and
performs no blocking primitive, and the single consumer's pop holds the
mutex, but the producers' enqueue accesses the shared queue unguarded. -/
theorem dispatch_appends_only_pop_locked :
    (∀ (s : Scheduler String) (ts : List String),
      (Scheduler.Dispatch s ts).inputQueue = s.inputQueue ++ ts) ∧
    (enqueueActions.all (fun a => ! a.isBlocking) = true) ∧
    (accessesGuarded dequeueActions 0 = true) ∧
    (accessesGuarded enqueueActions 0 = false) :=
  ⟨fun s ts => dispatch_inputQueue ts s, by decide, by decide, by decide⟩

/-- C4 is false as stated: the worker count 0 is non-positive, yet
construction, handler binding and Start all succeed without any fatal
error (no worker-count validation exists in the code). -/
theorem zero_workers_accepted_counterexample :
    (0 : Int) ≤ 0 ∧
    (NewScheduler String 0).bind (fun s => Scheduler.Start s.WithHandler)
      = Except.ok { maxWorkers := 0, hasHandler := true,
                    numWorkers := 0, inputQueue := [] } :=
  ⟨le_refl 0, rfl⟩

/-- C4 amended: Start with no handler bound fails fatally, and a negative
worker count fails fatally at construction (building the worker channels
panics), but a worker count of zero is accepted: startup performs no
explicit worker-count validation. -/
theorem config_errors (n : Int) (s : Scheduler String)
    (hn : n < 0) (hh : s.hasHandler = false) :
    NewScheduler String n = Except.error "makechan: size out of range" ∧
    Scheduler.Start s = Except.error "scheduler missing handler" ∧
    (NewScheduler String 0).isOk = true := by
  refine ⟨?_, ?_, rfl⟩
  · unfold NewScheduler goMakeChanCap
    rw [if_pos hn]
    rfl
  · simp [Scheduler.Start, hh]

/-- A closed instance of the C4 theorem at worker count -1 and a
handlerless scheduler. -/
theorem config_errors_witness :
    NewScheduler String (-1) = Except.error "makechan: size out of range" ∧
    Scheduler.Start schedulerNoHandler
      = Except.error "scheduler missing handler" :=
  ⟨(config_errors (-1) schedulerNoHandler (by decide) rfl).1,
   (config_errors (-1) schedulerNoHandler (by decide) rfl).2.1⟩

/-- C5: crawling the three-page scenario from seed a produces exactly the
three Result Records a, x, y; the Discovered and Completed sets both end
at size 3; the queue drains, and the re-dispatch of /x from /y does not
yield a second record for /x. -/
theorem crawl_scenario_c5 :
    (crawlExec fetchC5 10 (initState urlA)).result.map crawlerResult.url
      = [urlA, urlX, urlY] ∧
    (crawlExec fetchC5 10 (initState urlA)).result.length = 3 ∧
    (crawlExec fetchC5 10 (initState urlA)).cache.size = 3 ∧
    (crawlExec fetchC5 10 (initState urlA)).visited.size = 3 ∧
    (crawlExec fetchC5 10 (initState urlA)).queue = [] :=
  ⟨rfl, rfl, rfl, rfl, rfl⟩

/-- C1 is false as stated: on a successful fetch the handler inserts only
the not-yet-completed subset of the returned links into the Discovered
set, but re-dispatches ALL returned links, not just that subset.  With
page b already completed, fetching the seed yields links [b, c]; the
subset not in the Completed snapshot is [c], yet the dispatched tasks are
[b, c]. -/
theorem redispatch_subset_counterexample :
    (["https://a.test/b", "https://a.test/c"].filter
        (fun l => ! (stateC1.visited.addFn "https://a.test").slice.contains l))
      = ["https://a.test/c"] ∧
    (handlerStep fetchC1 stateC1 "https://a.test").queue
      = ["https://a.test/b", "https://a.test/c"] ∧
    ¬ (handlerStep fetchC1 stateC1 "https://a.test").queue
      = ["https://a.test/c"] :=
  ⟨rfl, rfl, by decide⟩

/-- C1 amended: for every successful fetch of a not-yet-completed task,
the handler appends exactly one Result Record, inserts into the
Discovered set exactly the returned links absent from the Completed-set
snapshot (taken just after the task itself was marked completed), and
re-dispatches ALL returned links to the Scheduler; already-completed
links among them are dropped on receipt by the handler's duplicate
guard. -/
theorem handler_success_effects (f : Fetch) (s : CrawlState) (input : String)
    (links : List String) (status : Nat)
    (hv : s.visited.has input = false) (hf : f input = some (links, status)) :
    (handlerStep f s input).result
      = s.result ++ [{ url := input, status := status,
                       count := links.length, links := links }] ∧
    (∀ x, (handlerStep f s input).cache.has x
      = (s.cache.has x ||
         (links.filter
           (fun l => ! (s.visited.addFn input).slice.contains l)).contains x)) ∧
    (handlerStep f s input).queue = s.queue ++ links ∧
    (handlerStep f s input).visited = s.visited.addFn input := by
  refine ⟨?_, fun x => ?_, ?_, ?_⟩
  · simp only [handlerStep, hv, hf, Bool.false_eq_true, if_false]
  · simp only [handlerStep, hv, hf, Bool.false_eq_true, if_false]
    exact addSliceFn_has s.cache _ x
  · simp only [handlerStep, hv, hf, Bool.false_eq_true, if_false]
  · simp only [handlerStep, hv, hf, Bool.false_eq_true, if_false]

/-- A closed instance of the C1 theorem: in the racing-duplicate state the
handler dispatches both returned links. -/
theorem handler_success_effects_witness :
    (handlerStep fetchC1 stateC1 "https://a.test").queue
      = stateC1.queue ++ ["https://a.test/b", "https://a.test/c"] :=
  (handler_success_effects fetchC1 stateC1 "https://a.test"
    ["https://a.test/b", "https://a.test/c"] 200 (by decide) rfl).2.2.1

/-- C3: a not-yet-completed task is inserted into the Completed set
whatever the fetch outcome; when the fetch fails the handler changes
nothing but the Completed set (no Result Record, no dispatch); and in the
scenario where the fetch of /x times out the crawl still drains its queue
and reaches quiescence (completed size at least discovered size) with no
record for /x. -/
theorem handler_failure_marks_completed (f : Fetch) (s : CrawlState)
    (input : String) (hv : s.visited.has input = false) :
    ((handlerStep f s input).visited.has input = true) ∧
    (f input = none →
      handlerStep f s input = { s with visited := s.visited.addFn input }) ∧
    ((crawlExec fetchTimeoutX 10 (initState urlA)).result.map crawlerResult.url
        = [urlA, urlY] ∧
     (crawlExec fetchTimeoutX 10 (initState urlA)).visited.has urlX = true ∧
     (crawlExec fetchTimeoutX 10 (initState urlA)).queue = [] ∧
     (crawlExec fetchTimeoutX 10 (initState urlA)).cache.size
       ≤ (crawlExec fetchTimeoutX 10 (initState urlA)).visited.size) := by
  refine ⟨?_, ?_, rfl, rfl, rfl, by decide⟩
  · cases hf : f input with
    | none =>
      simp only [handlerStep, hv, hf, Bool.false_eq_true, if_false]
      rw [addFn_has]
      simp [beq_decide]
    | some p =>
      cases p with
      | mk links status =>
        simp only [handlerStep, hv, hf, Bool.false_eq_true, if_false]
        show (s.visited.addFn input).has input = true
        rw [addFn_has]
        simp [beq_decide]
  · intro hf
    simp only [handlerStep, hv, hf, Bool.false_eq_true, if_false]

/-- A closed instance of the C3 theorem: handling /x under the timing-out
fetch marks /x completed. -/
theorem handler_failure_marks_completed_witness :
    (handlerStep fetchTimeoutX (initState urlA) urlX).visited.has urlX = true :=
  (handler_failure_marks_completed fetchTimeoutX (initState urlA) urlX
    (by decide)).1

theorem runLoop_pending (evs : List RunEvent) (sig : Int) (q : List Int) :
    runLoop evs (sig :: q)
      = if sig = sigQUIT then gracefulResult else exitResult sig := by
  cases evs with
  | nil => rfl
  | cons e tl => cases e <;> rfl

theorem runLoop_tick (v c : Nat) (rest : List RunEvent) :
    runLoop (RunEvent.tick v c :: rest) []
      = runLoop rest (if c ≤ v then [sigQUIT] else []) := rfl

theorem runLoop_workerState (i : Nat) (t : String) (rest : List RunEvent) :
    runLoop (RunEvent.workerState i t :: rest) [] = runLoop rest [] := rfl

theorem runLoop_signal (s : Int) (rest : List RunEvent) :
    runLoop (RunEvent.signal s :: rest) [] = runLoop rest [s] := rfl

/-- C6: while no poll observes completed-size at least discovered-size and
no external signal arrives, the run loop never stops; the first tick that
observes completed at least discovered sends the internal quit signal and
the loop returns through the graceful path, whose deferred function stops
the scheduler, stops the polling ticker and produces the final output. -/
theorem run_quiescent_poll_graceful (pre rest : List RunEvent) (v c : Nat)
    (hpre : ∀ e ∈ pre, e.triggersStop = false) (hvc : c ≤ v) :
    runLoop pre [] = stillRunning ∧
    runLoop (pre ++ RunEvent.tick v c :: rest) [] = gracefulResult ∧
    gracefulResult.schedulerStopped = true ∧
    gracefulResult.tickerStopped = true ∧
    gracefulResult.outputProduced = true := by
  refine ⟨?_, ?_, rfl, rfl, rfl⟩
  · induction pre with
    | nil => rfl
    | cons e p ih =>
      have he : e.triggersStop = false := hpre e (List.mem_cons_self e p)
      have hp : ∀ x ∈ p, x.triggersStop = false :=
        fun x hx => hpre x (List.mem_cons_of_mem e hx)
      cases e with
      | tick v2 c2 =>
        have hlt : ¬ (c2 ≤ v2) := by
          simpa [RunEvent.triggersStop] using he
        rw [runLoop_tick, if_neg hlt]
        exact ih hp
      | workerState i t =>
        rw [runLoop_workerState]
        exact ih hp
      | signal s =>
        simp [RunEvent.triggersStop] at he
  · induction pre with
    | nil =>
      rw [List.nil_append, runLoop_tick, if_pos hvc, runLoop_pending]
      simp
    | cons e p ih =>
      have he : e.triggersStop = false := hpre e (List.mem_cons_self e p)
      have hp : ∀ x ∈ p, x.triggersStop = false :=
        fun x hx => hpre x (List.mem_cons_of_mem e hx)
      cases e with
      | tick v2 c2 =>
        have hlt : ¬ (c2 ≤ v2) := by
          simpa [RunEvent.triggersStop] using he
        rw [List.cons_append, runLoop_tick, if_neg hlt]
        exact ih hp
      | workerState i t =>
        rw [List.cons_append, runLoop_workerState]
        exact ih hp
      | signal s =>
        simp [RunEvent.triggersStop] at he

/-- A closed instance of the C6 theorem: an immediate quiescent poll
observation (1 completed, 1 discovered) shuts the loop down gracefully. -/
theorem run_quiescent_poll_graceful_witness :
    runLoop [RunEvent.tick 1 1] [] = gracefulResult :=
  (run_quiescent_poll_graceful [] [] 1 1
    (fun e he => absurd he (List.not_mem_nil e)) (le_refl 1)).2.1

theorem handlerStep_cache_mono (f : Fetch) (s : CrawlState) (t x : String)
    (h : s.cache.has x = true) : (handlerStep f s t).cache.has x = true := by
  by_cases hv : s.visited.has t = true
  · simpa [handlerStep, hv] using h
  · have hv2 : s.visited.has t = false := Bool.eq_false_iff.mpr hv
    cases hf : f t with
    | none => simpa [handlerStep, hv2, hf] using h
    | some p =>
      cases p with
      | mk links status =>
        simp only [handlerStep, hv2, hf, Bool.false_eq_true, if_false]
        rw [addSliceFn_has, h]
        rfl

theorem handlerStep_visited_mono (f : Fetch) (s : CrawlState) (t x : String)
    (h : s.visited.has x = true) : (handlerStep f s t).visited.has x = true := by
  by_cases hv : s.visited.has t = true
  · simpa [handlerStep, hv] using h
  · have hv2 : s.visited.has t = false := Bool.eq_false_iff.mpr hv
    cases hf : f t with
    | none =>
      simp only [handlerStep, hv2, hf, Bool.false_eq_true, if_false]
      rw [addFn_has, h]
      rfl
    | some p =>
      cases p with
      | mk links status =>
        simp only [handlerStep, hv2, hf, Bool.false_eq_true, if_false]
        show (s.visited.addFn t).has x = true
        rw [addFn_has, h]
        rfl

theorem Reach_invariant (f : Fetch) (s : CrawlState) (h : Reach f s) :
    (∀ x, s.visited.has x = true → s.cache.has x = true) ∧
    (∀ x, x ∈ s.queue → s.cache.has x = true) := by
  induction h with
  | init seed =>
    constructor
    · intro x hx
      simp [initState, hashSet.zero, hashSet.has, mapHas] at hx
    · intro x hx
      have hxs : x = seed := by simpa [initState] using hx
      subst hxs
      show (hashSet.zero.addFn x).has x = true
      rw [addFn_has]
      simp [beq_decide]
  | @step s1 t rest hr hq ih =>
    obtain ⟨ihv, ihq⟩ := ih
    have ht : s1.cache.has t = true :=
      ihq t (by rw [hq]; exact List.mem_cons_self t rest)
    have hrest : ∀ x ∈ rest, s1.cache.has x = true :=
      fun x hx => ihq x (by rw [hq]; exact List.mem_cons_of_mem t hx)
    by_cases hv : s1.visited.has t = true
    · have hst : handlerStep f { s1 with queue := rest } t
          = { s1 with queue := rest } := by
        simp [handlerStep, hv]
      rw [hst]
      exact ⟨fun x hx => ihv x hx, fun x hx => hrest x hx⟩
    · have hv2 : s1.visited.has t = false := Bool.eq_false_iff.mpr hv
      cases hf : f t with
      | none =>
        have hst : handlerStep f { s1 with queue := rest } t
            = { s1 with queue := rest, visited := s1.visited.addFn t } := by
          simp [handlerStep, hv2, hf]
        rw [hst]
        constructor
        · intro x hx
          have hx2 : s1.visited.has x = true ∨ (x == t) = true := by
            rwa [addFn_has, Bool.or_eq_true] at hx
          rcases hx2 with h1 | h2
          · exact ihv x h1
          · have hxt : x = t := by simpa [beq_decide] using h2
            subst hxt
            exact ht
        · intro x hx
          exact hrest x hx
      | some p =>
        cases p with
        | mk links status =>
          have hst : handlerStep f { s1 with queue := rest } t
              = { cache := s1.cache.addSliceFn (links.filter
                    (fun l => ! (s1.visited.addFn t).slice.contains l)),
                  visited := s1.visited.addFn t,
                  result := s1.result ++ [{ url := t, status := status, count := links.length, links := links }],
                  queue := rest ++ links } := by
            simp [handlerStep, hv2, hf]
          rw [hst]
          constructor
          · intro x hx
            have hx2 : s1.visited.has x = true ∨ (x == t) = true := by
              rwa [addFn_has, Bool.or_eq_true] at hx
            rw [addSliceFn_has, Bool.or_eq_true]
            left
            rcases hx2 with h1 | h2
            · exact ihv x h1
            · have hxt : x = t := by simpa [beq_decide] using h2
              subst hxt
              exact ht
          · intro x hx
            rw [List.mem_append] at hx
            rw [addSliceFn_has, Bool.or_eq_true]
            rcases hx with hx | hx
            · left
              exact hrest x hx
            · by_cases hsnap : (s1.visited.addFn t).slice.contains x = true
              · rw [slice_contains, addFn_has, Bool.or_eq_true] at hsnap
                left
                rcases hsnap with h1 | h2
                · exact ihv x h1
                · have hxt : x = t := by simpa [beq_decide] using h2
                  subst hxt
                  exact ht
              · right
                have hcf : (s1.visited.addFn t).slice.contains x = false :=
                  Bool.eq_false_iff.mpr hsnap
                rw [contains_decide]
                refine decide_eq_true ?_
                refine List.mem_filter.mpr ⟨hx, ?_⟩
                rw [hcf]
                rfl

/-- C7: throughout a crawl the Discovered (cache) and Completed (visited)
sets only grow — a handler step never removes a member of either — and in
every reachable crawl state every completed task is also a member of the
Discovered set. -/
theorem sets_monotone_completed_subset (f : Fetch) (s : CrawlState)
    (h : Reach f s) :
    (∀ x, s.visited.has x = true → s.cache.has x = true) ∧
    (∀ (t x : String),
      (s.cache.has x = true → (handlerStep f s t).cache.has x = true) ∧
      (s.visited.has x = true → (handlerStep f s t).visited.has x = true)) :=
  ⟨(Reach_invariant f s h).1,
   fun t x => ⟨handlerStep_cache_mono f s t x, handlerStep_visited_mono f s t x⟩⟩

/-- A closed instance of the C7 theorem: from the reachable initial state,
handling a task keeps the seed in the Discovered set. -/
theorem sets_monotone_completed_subset_witness :
    (handlerStep (fun _ => none) (initState urlA) urlX).cache.has urlA = true :=
  ((sets_monotone_completed_subset (fun _ => none) (initState urlA)
      (Reach.init urlA)).2 urlX urlA).1 (by decide)
